import Mathlib

/-!
Verification of the Breathscape Webflow migration script (`download_assets.py`).

The script is embedded shallowly over `List Char` strings:

* `urlsplit` / `urlparse` model the relevant behaviour of CPython's
  `urllib.parse.urlparse` (scheme detection, netloc splitting with the
  square-bracket mismatch `ValueError`, fragment/query/params splitting,
  the WHATWG left strip of C0-control/space characters and the removal of
  tab/CR/LF).  The IPv6 address validation of bracketed hosts (CPython
  3.11+) and the NFKC netloc check (which only concerns non-ASCII input)
  are not modelled; theorems that quantify over arbitrary URL strings
  therefore restrict to bracket-free ASCII input where those checks are
  vacuous on every CPython version.
* `url_to_local_path` is the path mapper (errors of `urlparse` propagate,
  matching the Python code where a raised `ValueError` escapes).
* `extract_cdn_urls` models the two `re.findall` scans: left-to-right,
  non-overlapping, greedy matching of a literal host pattern followed by
  one or more characters outside the terminator class: double quote,
  whitespace, closing parenthesis, greater-than.
* `download_asset` / `mainT` model the driver loop with the network and
  the file system abstracted into an `Oracle`; partially written files of
  a failed `write` call are not modelled (only complete successful writes
  are recorded).
-/

namespace Breathscape

/-! ## Definitions -/


/-- Strings are modelled as lists of characters. -/
abbrev Str := List Char

/-! ### Small string helpers -/

/-- Substring test, Python's `pat in s`. -/
def containsStr (s pat : Str) : Bool :=
  match s with
  | [] => pat.isEmpty
  | _ :: t => pat.isPrefixOf s || containsStr t pat

/-- Index of the first occurrence of a character, if any. -/
def idxOfQ (c : Char) : Str → Option Nat
  | [] => none
  | d :: t => if d = c then some 0 else (idxOfQ c t).map (· + 1)

/-- Index of the last occurrence of a character, if any (Python `rfind`). -/
def lastIdxOfQ (c : Char) (s : Str) : Option Nat :=
  match idxOfQ c s.reverse with
  | none => none
  | some i => some (s.length - 1 - i)

/-- Split at the first occurrence of `c`: `(before, after)`, the
separator removed.  `none` when `c` does not occur. -/
def splitAtFirst (c : Char) (s : Str) : Option (Str × Str) :=
  match idxOfQ c s with
  | none => none
  | some i => some (s.take i, s.drop (i + 1))

/-- Last element of a list with a default (Python `lst[-1]` on a
nonempty list). -/
def lastD (l : List Str) : Str :=
  l.getLastD []

/-- ASCII lower case, as `str.lower` acts on ASCII letters. -/
def asciiLower (c : Char) : Char :=
  if 'A' ≤ c ∧ c ≤ 'Z' then Char.ofNat (c.toNat + 32) else c

/-! ### The `urllib.parse` model -/

/-- Characters stripped from the left of the URL (WHATWG C0 control or
space), CPython `_WHATWG_C0_CONTROL_OR_SPACE`. -/
def c0OrSpace (c : Char) : Bool := c.toNat ≤ 0x20

/-- Characters removed everywhere, CPython `_UNSAFE_URL_BYTES_TO_REMOVE`. -/
def tabCrLf (c : Char) : Bool := c = '\t' || c = '\r' || c = '\n'

/-- CPython `scheme_chars`: ASCII letters, digits, `+`, `-`, `.`. -/
def schemeChar (c : Char) : Bool :=
  c.isAlpha || c.isDigit || c = '+' || c = '-' || c = '.'

/-- Delimiters ending the netloc, CPython `_splitnetloc`. -/
def netlocDelim (c : Char) : Bool := c = '/' || c = '?' || c = '#'

/-- Result of `urlsplit` (params not yet separated). -/
structure SplitUrl where
  scheme : Str
  netloc : Str
  path : Str
  query : Str
  fragment : Str
deriving Repr, DecidableEq

/-- Model of `urllib.parse.urlsplit` (`allow_fragments=True`).  The
`ValueError` raised on a netloc containing `[` without `]` (or the
converse) is returned as `.error`; this check exists in every CPython
version.  The preprocessing (left strip of C0-control/space, removal of
tab/CR/LF) and the requirement that a scheme start with an ASCII letter
follow modern CPython (3.11+); both are invisible on the
whitespace-free URLs the extractor produces. -/
def urlsplit (url0 : Str) : Except Str SplitUrl :=
  let url1 := url0.dropWhile c0OrSpace
  let url2 := url1.filter (fun c => !(tabCrLf c))
  -- scheme detection: first colon, at a positive index, the text before it
  -- starting with an ASCII letter and consisting of scheme characters only
  let (scheme, rest) :=
    match splitAtFirst ':' url2 with
    | none => (([] : Str), url2)
    | some (before, after) =>
      if before.length > 0 ∧ (before.headD ' ').isAlpha ∧ before.all schemeChar then
        (before.map asciiLower, after)
      else (([] : Str), url2)
  -- netloc
  let (netloc, rest2) :=
    if (['/', '/'] : Str).isPrefixOf rest then
      let t := rest.drop 2
      (t.takeWhile (fun c => !(netlocDelim c)), t.dropWhile (fun c => !(netlocDelim c)))
    else (([] : Str), rest)
  if (netloc.contains '[' && !(netloc.contains ']'))
      || (netloc.contains ']' && !(netloc.contains '[')) then
    .error "Invalid IPv6 URL".toList
  else
    -- fragment, then query
    let (rest3, fragment) :=
      match splitAtFirst '#' rest2 with
      | none => (rest2, ([] : Str))
      | some (a, b) => (a, b)
    let (path, query) :=
      match splitAtFirst '?' rest3 with
      | none => (rest3, ([] : Str))
      | some (a, b) => (a, b)
    .ok { scheme := scheme, netloc := netloc, path := path,
          query := query, fragment := fragment }

/-- CPython `uses_params`. -/
def usesParams : List Str :=
  ["", "ftp", "hdl", "prospero", "http", "imap", "https", "shttp", "rtsp",
   "rtspu", "sip", "sips", "mms", "sftp", "tel"].map String.toList

/-- Result of `urlparse` (path and params separated). -/
structure ParsedUrl where
  scheme : Str
  netloc : Str
  path : Str
  params : Str
  query : Str
  fragment : Str
deriving Repr, DecidableEq

/-- CPython `_splitparams`: split the params off the last path segment. -/
def splitparams (p : Str) : Str × Str :=
  if (p.contains '/') then
    match lastIdxOfQ '/' p with
    | none => (p, [])
    | some ls =>
      match idxOfQ ';' (p.drop ls) with
      | none => (p, [])
      | some k => (p.take (ls + k), p.drop (ls + k + 1))
  else
    match idxOfQ ';' p with
    | none => (p, [])
    | some i => (p.take i, p.drop (i + 1))

/-- Model of `urllib.parse.urlparse`. -/
def urlparse (url : Str) : Except Str ParsedUrl :=
  match urlsplit url with
  | .error e => .error e
  | .ok s =>
    let (path, params) :=
      if s.scheme ∈ usesParams ∧ s.path.contains ';' then splitparams s.path
      else (s.path, [])
    .ok { scheme := s.scheme, netloc := s.netloc, path := path,
          params := params, query := s.query, fragment := s.fragment }

/-! ### The path mapper, `url_to_local_path` -/

/-- Python `parts[-1].split('?')[0]`: last segment up to the first `?`. -/
def fileNameOf (parts : List Str) : Str :=
  (lastD parts).takeWhile (fun c => c ≠ '?')

/-- Model of `url_to_local_path`.  A `ValueError` escaping `urlparse`
propagates (the Python function does not catch it). -/
def url_to_local_path (url : Str) : Except Str Str :=
  match urlparse url with
  | .error e => .error e
  | .ok pr =>
    let path := pr.path.dropWhile (fun c => c = '/')
    if containsStr url "website-files.com".toList then
      let parts := path.splitOn '/'
      if parts.length ≥ 2 then
        if containsStr path "/css/".toList then
          .ok ("assets/css/".toList ++ fileNameOf parts)
        else if containsStr path "/js/".toList then
          .ok ("assets/js/".toList ++ fileNameOf parts)
        else
          .ok ("assets/images/".toList ++ fileNameOf parts)
      else
        .ok ("assets/".toList ++ fileNameOf (path.splitOn '/'))
    else if containsStr url "cloudfront.net".toList then
      .ok ("assets/js/".toList ++ fileNameOf (path.splitOn '/'))
    else
      .ok ("assets/".toList ++ fileNameOf (path.splitOn '/'))

/-- Spec-side definition (section 4.2): the primary-CDN routing rules,
written from the spec's words: a `/css/` marker routes to
`assets/css/<filename>`, a `/js/` marker to `assets/js/<filename>`,
anything else to `assets/images/<filename>`. -/
def primaryRouting (path : Str) : Str :=
  if containsStr path "/css/".toList then
    "assets/css/".toList ++ fileNameOf (path.splitOn '/')
  else if containsStr path "/js/".toList then
    "assets/js/".toList ++ fileNameOf (path.splitOn '/')
  else
    "assets/images/".toList ++ fileNameOf (path.splitOn '/')

/-! ### The URL extractor, `extract_cdn_urls`

The two patterns are a literal host part followed by `[^"\s\)>]+`,
scanned by `re.findall`: left to right, non-overlapping, each match
greedy (maximal). -/

/-- Python regex `\s` on a `str` pattern: Unicode whitespace. -/
def pySpace (c : Char) : Bool :=
  let n := c.toNat
  n = 0x20 || (0x9 ≤ n && n ≤ 0xD) || (0x1C ≤ n && n ≤ 0x1F) || n = 0x85 ||
    n = 0xA0 || n = 0x1680 || (0x2000 ≤ n && n ≤ 0x200A) || n = 0x2028 ||
    n = 0x2029 || n = 0x202F || n = 0x205F || n = 0x3000

/-- The terminator class of the two patterns: double quote, whitespace,
closing parenthesis, greater-than sign. -/
def terminator (c : Char) : Bool :=
  c = '"' || pySpace c || c = ')' || c = '>'

/-- One match attempt at the current position: the literal `pre` followed
by a maximal nonempty run of non-terminator characters.  Returns the
match and the remainder of the text after it. -/
def matchAt (pre s : Str) : Option (Str × Str) :=
  if pre.isPrefixOf s then
    let t := s.drop pre.length
    let run := t.takeWhile (fun c => !(terminator c))
    if run.isEmpty then none
    else some (pre ++ run, t.drop run.length)
  else none

/-- The `re.findall` scan for one pattern, fuelled so that it is
structurally recursive (every step consumes at least one character, so
`s.length` fuel is always enough): try a match at every position, left to
right; after a match, continue after it (non-overlapping). -/
def findAllAux (pre : Str) : Nat → Str → List Str
  | 0, _ => []
  | Nat.succ n, s =>
    match matchAt pre s with
    | some (m, rest) => m :: findAllAux pre n rest
    | none =>
      match s with
      | [] => []
      | _ :: t => findAllAux pre n t

/-- The `re.findall` scan for one pattern over the whole text. -/
def findAll (pre s : Str) : List Str :=
  findAllAux pre s.length s

/-- Model of `extract_cdn_urls`: the two `findall` scans, collected into
a Python `set`.  Only membership and distinctness of the set are used by
the driver (which sorts it), so the set is modelled as the deduplicated
list of matches. -/
def extract_cdn_urls (html : Str) : List Str :=
  (findAll "https://cdn.prod.website-files.com/".toList html
    ++ findAll "https://d3e54v103j8qbb.cloudfront.net/".toList html).dedup

/-- Declarative shape of a match of one pattern: the literal host part
followed by a nonempty run of non-terminator characters. -/
def patternShape (pre u : Str) : Bool :=
  pre.isPrefixOf u && !(u.drop pre.length).isEmpty &&
    (u.drop pre.length).all (fun c => !(terminator c))

/-- The string `u` occurs somewhere in `s` and the occurrence is maximal:
it is followed by a terminator character or by the end of the text. -/
def occursTerminated (u : Str) : Str → Bool
  | [] => u.isEmpty
  | c :: t =>
      (u.isPrefixOf (c :: t) &&
        (((c :: t).drop u.length).isEmpty
          || terminator (((c :: t).drop u.length).headD ' ')))
      || occursTerminated u t

/-- Declarative match (the claim C3 set): `u` has the shape of one of the
two CDN patterns and occurs in the HTML, extending maximally to the
first terminator (or the end of the text). -/
def DeclMatch (html u : Str) : Bool :=
  (patternShape "https://cdn.prod.website-files.com/".toList u
    || patternShape "https://d3e54v103j8qbb.cloudfront.net/".toList u)
  && occursTerminated u html

/-! ### String replacement, `str.replace`

Python's `str.replace(old, new)` replaces the non-overlapping occurrences
of `old` left to right.  As with the scan, the recursion is fuelled with
the length of the text (each step consumes at least one character).  The
Python behaviour for an empty `old` (inserting `new` between all
characters) is not modelled — the driver only ever replaces extracted
URLs, which are never empty — and an empty `old` leaves the text
unchanged here. -/

/-- Fuelled left-to-right non-overlapping replacement. -/
def replaceAllAux (old rep : Str) : Nat → Str → Str
  | 0, s => s
  | Nat.succ n, s =>
    if old.isPrefixOf s && !old.isEmpty then
      rep ++ replaceAllAux old rep n (s.drop old.length)
    else
      match s with
      | [] => []
      | c :: t => c :: replaceAllAux old rep n t

/-- Model of Python `s.replace(old, rep)` for nonempty `old`. -/
def replaceAll (old rep s : Str) : Str :=
  replaceAllAux old rep s.length s

/-! ### Occurrence bookkeeping for the rewrite

`agree x y` says one of the two strings is a prefix of the other — the
overlap pattern that lets an occurrence of one string continue into a
copy of the other.  `NoStartIn q u` says no occurrence of `u` can begin
inside a copy of `q`; `NoSpan u q` says no occurrence of `u` can run
from surrounding text into a copy of `q`. -/

def agree (x y : Str) : Prop := x <+: y ∨ y <+: x

instance (x y : Str) : Decidable (agree x y) := by
  unfold agree; infer_instance

def NoStartIn (q u : Str) : Prop := ∀ k, k < q.length → ¬ agree (q.drop k) u

instance (q u : Str) : Decidable (NoStartIn q u) := by
  unfold NoStartIn; infer_instance

def NoSpan (u q : Str) : Prop := ∀ j, j < u.length → 0 < j → ¬ agree (u.drop j) q

instance (u q : Str) : Decidable (NoSpan u q) := by
  unfold NoSpan; infer_instance

/-! ### The HTML rewrite pass

`new_html = html; for old_url, new_path in url_mapping.items():
new_html = new_html.replace(old_url, new_path)` — a left fold of
`replaceAll` over the mapping in insertion order. -/

def rewriteHtml (html : Str) (mapping : List (Str × Str)) : Str :=
  mapping.foldl (fun h e => replaceAll e.1 e.2 h) html

/-! ### The driver, `main`

The network and the file system are abstracted into an `Oracle`:
`mkdirs` and `write` return `some errormessage` when the corresponding
call would raise, `fetch` models `requests.get` combined with
`raise_for_status` (a network error, timeout, or non-2xx status all
become one error string, any of them raising `requests` exceptions that
the `except` clause catches), returning the response body bytes on
success.  A file partially written by a failing `write` call is not
modelled: only complete successful writes are recorded.  Exceptions
propagate as `.error (message, state-so-far)`, keeping the side effects
already performed. -/

structure Oracle where
  mkdirs : Str → Option Str
  fetch : Str → Except Str (List Nat)
  write : Str → Option Str

inductive Outcome where
  | success (nbytes : Nat)
  | failure (msg : Str)
deriving Repr, DecidableEq

def Outcome.isSuccess : Outcome → Bool
  | .success _ => true
  | .failure _ => false

structure RunState where
  mapping : List (Str × Str)
  totalSize : Nat
  events : List (Str × Outcome)
  files : List (Str × List Nat)
deriving Repr, DecidableEq

def initState : RunState := ⟨[], 0, [], []⟩

def OUTPUT_DIR : Str := "breathscape-site".toList

/-- `os.path.join` for a nonempty directory and a relative path. -/
def pathJoin (a b : Str) : Str := a ++ ('/' :: b)

/-- `os.path.dirname` for the paths this script builds (no duplicated
and no leading slashes): everything before the last slash. -/
def dirname (s : Str) : Str :=
  match lastIdxOfQ '/' s with
  | none => []
  | some i => s.take i

structure DownloadStep where
  outcome : Outcome
  wrote : Option (Str × List Nat)
deriving Repr, DecidableEq

/-- Model of `download_asset`.  `os.makedirs` sits before the `try`
block, so its exception escapes (`.error`); everything inside the `try`
is folded into the returned outcome. -/
def download_asset (o : Oracle) (url localPath outputDir : Str) :
    Except Str DownloadStep :=
  let fullPath := pathJoin outputDir localPath
  match o.mkdirs (dirname fullPath) with
  | some e => .error e
  | none =>
    match o.fetch url with
    | .error e => .ok ⟨.failure e, none⟩
    | .ok content =>
      match o.write fullPath with
      | some e => .ok ⟨.failure e, none⟩
      | none => .ok ⟨.success content.length, some (fullPath, content)⟩

/-- The download loop of `main`: one sequential pass over the sorted
URLs, building the URL-to-path mapping, the byte total, the per-URL
outcomes, and the successful file writes.  `url_to_local_path` and
`download_asset` sit outside any `try`, so their exceptions abort the
loop, keeping the state reached so far. -/
def processUrls (o : Oracle) : List Str → RunState → Except (Str × RunState) RunState
  | [], st => .ok st
  | u :: rest, st =>
    match url_to_local_path u with
    | .error e => .error (e, st)
    | .ok lp =>
      match download_asset o u lp OUTPUT_DIR with
      | .error e => .error (e, st)
      | .ok step =>
        match step.outcome with
        | .success nb =>
          processUrls o rest
            { mapping := st.mapping ++ [(u, lp)],
              totalSize := st.totalSize + nb,
              events := st.events ++ [(u, .success nb)],
              files := st.files ++ step.wrote.toList }
        | .failure msg =>
          processUrls o rest { st with events := st.events ++ [(u, .failure msg)] }

/-- Python `sorted`: ascending lexicographic comparison by code point. -/
def lexLe : Str → Str → Bool
  | [], _ => true
  | _ :: _, [] => false
  | a :: as, b :: bs =>
    if a.toNat < b.toNat then true
    else if a = b then lexLe as bs else false

def lexLeP (a b : Str) : Prop := lexLe a b = true

instance : DecidableRel lexLeP := fun a b => by
  unfold lexLeP; infer_instance

/-- Python `sorted(urls)`: the URLs in ascending lexicographic order.
Insertion sort is used so that the definition evaluates by kernel
reduction; on the duplicate-free extracted set it produces the same
sequence as any sort. -/
def pySorted (l : List Str) : List Str := List.insertionSort lexLeP l

structure RunResult where
  urls : List Str
  finalState : RunState
  newHtml : Str
deriving Repr, DecidableEq

/-- Model of `main`, parameterised by the result of reading the input
HTML file (reading happens first; a read error aborts before any other
work).  Then: extract, sort, create the output directory, loop over the
URLs, rewrite the HTML, write it out. -/
def mainT (o : Oracle) (readResult : Except Str Str) :
    Except (Str × RunState) RunResult :=
  match readResult with
  | .error e => .error (e, initState)
  | .ok html =>
    let urls := pySorted (extract_cdn_urls html)
    match o.mkdirs OUTPUT_DIR with
    | some e => .error (e, initState)
    | none =>
      match processUrls o urls initState with
      | .error es => .error es
      | .ok st =>
        let newHtml := rewriteHtml html st.mapping
        match o.write (pathJoin OUTPUT_DIR "index.html".toList) with
        | some e => .error (e, st)
        | none => .ok { urls := urls, finalState := st, newHtml := newHtml }

/-- Total byte size of the distinct files on disk after the run, each
path with its last written content. -/
def diskTotal (files : List (Str × List Nat)) : Nat :=
  ((files.map Prod.fst).dedup.map
    (fun p => (((files.filter (fun f => f.1 == p)).map Prod.snd).getLastD []).length)).sum

def collideOracle : Oracle :=
  ⟨fun _ => none,
   fun u => if u = "https://cdn.prod.website-files.com/a/x.png".toList
     then Except.ok [7] else Except.ok [8, 9],
   fun _ => none⟩

def allOkOracle : Oracle :=
  ⟨fun _ => none, fun _ => Except.ok [7], fun _ => none⟩

def mkdirFailOracle : Oracle :=
  ⟨fun d => if d = "breathscape-site/assets/images".toList
     then some "Permission denied".toList else none,
   fun _ => Except.ok [7],
   fun _ => none⟩

def fetchFailOracle : Oracle :=
  ⟨fun _ => none,
   fun u => if u = "https://cdn.prod.website-files.com/s/a.png".toList
     then Except.error "timeout".toList else Except.ok [7],
   fun _ => none⟩

/-! ## Theorems -/

/-! ### Claims about the path mapper -/

/-- C2: the four Path Mapper examples of the spec hold as stated. -/
theorem claim_C2 :
    url_to_local_path "https://cdn.prod.website-files.com/abc123/css/main.css?v=2".toList
      = .ok "assets/css/main.css".toList ∧
    url_to_local_path "https://cdn.prod.website-files.com/abc123/img/logo.png".toList
      = .ok "assets/images/logo.png".toList ∧
    url_to_local_path "https://d3e54v103j8qbb.cloudfront.net/jquery-3.5.1.min.js".toList
      = .ok "assets/js/jquery-3.5.1.min.js".toList ∧
    url_to_local_path "https://example.com/foo/bar.pdf".toList
      = .ok "assets/bar.pdf".toList :=
  ⟨rfl, rfl, rfl, rfl⟩

/-- C6 counterexample: `url_to_local_path` is not total.  On the URL
`https://[/x` the underlying parser raises `ValueError: Invalid IPv6 URL`
(the netloc `[` contains `[` without `]`), and the exception escapes, so
there is an input with no output — refuting the "every input produces
some output (no failure mode)" part of the claim. -/
theorem claim_C6_counterexample :
    url_to_local_path "https://[/x".toList = .error "Invalid IPv6 URL".toList :=
  rfl

/-- C6, amended: `url_to_local_path` is deterministic (it is a pure
function of its argument), and on every URL that the underlying parser
accepts it produces a non-empty path, which moreover starts with
`assets/`.  It is not total: a URL whose authority has mismatched square
brackets makes the parser raise, and the exception propagates. -/
theorem claim_C6 (url r : Str) (h : url_to_local_path url = .ok r) :
    "assets/".toList <+: r ∧ r ≠ [] := by
  unfold url_to_local_path at h
  rcases hp : urlparse url with e | pr <;> rw [hp] at h
  · exact absurd h (by simp)
  · dsimp only at h
    repeat' split at h
    all_goals
      injection h with h
    all_goals
      subst h
    all_goals
      exact ⟨⟨_, rfl⟩, fun hn => absurd (List.append_eq_nil.mp hn).1 (by decide)⟩

/-- C6 witness: the amended theorem applied at a concrete accepted URL. -/
theorem claim_C6_witness :
    "assets/".toList <+: "assets/css/main.css".toList ∧
      "assets/css/main.css".toList ≠ ([] : Str) :=
  claim_C6 "https://cdn.prod.website-files.com/abc123/css/main.css?v=2".toList
    "assets/css/main.css".toList rfl

/-- C5 counterexample: the URL `https://cdn.prod.website-files.com/x.png`
has its host in the primary CDN family and no `/css/` or `/js/` marker,
yet the mapper returns `assets/x.png`, not `assets/images/x.png`: the
code only routes to `assets/images/` when the path has at least two
`/`-delimited segments, a guard the claim omits. -/
theorem claim_C5_counterexample :
    (urlparse "https://cdn.prod.website-files.com/x.png".toList).map ParsedUrl.netloc
      = .ok "cdn.prod.website-files.com".toList ∧
    url_to_local_path "https://cdn.prod.website-files.com/x.png".toList
      = .ok "assets/x.png".toList ∧
    "assets/x.png".toList ≠ "assets/images/x.png".toList :=
  ⟨rfl, rfl, by decide⟩

/-- C5, amended: for every URL containing `website-files.com` as a
literal substring (the code tests the whole URL string, not the parsed
host) whose path — leading slashes stripped — has at least two
`/`-delimited segments and contains neither `/css/` nor `/js/`, the
mapper returns `assets/images/<filename>`, where `<filename>` is the
last `/`-delimited segment with anything from `?` onward discarded. -/
theorem claim_C5 (url : Str) (pr : ParsedUrl) (hp : urlparse url = .ok pr)
    (hwf : containsStr url "website-files.com".toList = true)
    (h2 : ((pr.path.dropWhile (fun c => c = '/')).splitOn '/').length ≥ 2)
    (hcss : ¬ containsStr (pr.path.dropWhile (fun c => c = '/')) "/css/".toList = true)
    (hjs : ¬ containsStr (pr.path.dropWhile (fun c => c = '/')) "/js/".toList = true) :
    url_to_local_path url =
      .ok ("assets/images/".toList ++
            fileNameOf ((pr.path.dropWhile (fun c => c = '/')).splitOn '/')) := by
  unfold url_to_local_path
  rw [hp]
  dsimp only
  rw [if_pos hwf, if_pos h2, if_neg hcss, if_neg hjs]

/-- C5 witness: the amended theorem applied at a concrete URL. -/
theorem claim_C5_witness :
    url_to_local_path "https://cdn.prod.website-files.com/abc123/img/logo.png".toList
      = .ok "assets/images/logo.png".toList := by
  exact claim_C5 "https://cdn.prod.website-files.com/abc123/img/logo.png".toList
    _ rfl rfl (by decide) (by decide) (by decide)

/-- C10 counterexample: a URL containing `website-files.com` only in its
query, with a single-segment path, is routed by the code to the generic
fallback `assets/x`, not to the primary-CDN bucket `assets/images/x`
that the spec's primary routing rules would give: with fewer than two
path segments the primary routing rules do not apply. -/
theorem claim_C10_counterexample :
    containsStr "https://evil.example/x?website-files.com".toList
      "website-files.com".toList = true ∧
    url_to_local_path "https://evil.example/x?website-files.com".toList
      = .ok "assets/x".toList ∧
    (urlparse "https://evil.example/x?website-files.com".toList).map
        (fun p => primaryRouting (p.path.dropWhile (fun c => c = '/')))
      = .ok "assets/images/x".toList ∧
    "assets/x".toList ≠ "assets/images/x".toList :=
  ⟨rfl, rfl, rfl, by decide⟩

/-- C10, amended: classification is by substring containment in the whole
URL string, not by the parsed host.  For every URL containing
`website-files.com` anywhere whose stripped path has at least two
`/`-delimited segments, the primary-CDN routing rules apply even when
the host is a different domain (with fewer segments the generic
`assets/<filename>` fallback applies instead); and every URL not
containing `website-files.com` but containing `cloudfront.net` anywhere
is routed to `assets/js/<filename>`. -/
theorem claim_C10 (url : Str) (pr : ParsedUrl) (hp : urlparse url = .ok pr) :
    (containsStr url "website-files.com".toList = true →
      ((pr.path.dropWhile (fun c => c = '/')).splitOn '/').length ≥ 2 →
      url_to_local_path url
        = .ok (primaryRouting (pr.path.dropWhile (fun c => c = '/')))) ∧
    (¬ containsStr url "website-files.com".toList = true →
      containsStr url "cloudfront.net".toList = true →
      url_to_local_path url
        = .ok ("assets/js/".toList ++
                fileNameOf ((pr.path.dropWhile (fun c => c = '/')).splitOn '/'))) := by
  constructor
  · intro hwf h2
    unfold url_to_local_path primaryRouting
    rw [hp]
    dsimp only
    rw [if_pos hwf, if_pos h2,
      apply_ite (Except.ok (ε := Str)), apply_ite (Except.ok (ε := Str))]
  · intro hwf hcf
    unfold url_to_local_path
    rw [hp]
    dsimp only
    rw [if_neg hwf, if_pos hcf]

/-- C10 witness: both halves of the amended theorem at concrete URLs. -/
theorem claim_C10_witness :
    url_to_local_path "https://evil.example/website-files.com/img/logo.png".toList
      = .ok "assets/images/logo.png".toList ∧
    url_to_local_path "https://d3e54v103j8qbb.cloudfront.net/jquery-3.5.1.min.js".toList
      = .ok "assets/js/jquery-3.5.1.min.js".toList :=
  ⟨(claim_C10 "https://evil.example/website-files.com/img/logo.png".toList
      _ rfl).1 rfl (by decide),
   (claim_C10 "https://d3e54v103j8qbb.cloudfront.net/jquery-3.5.1.min.js".toList
      _ rfl).2 (by decide) rfl⟩

theorem drop_takeWhile_length (q : Char → Bool) :
    ∀ t : Str, t.drop (t.takeWhile q).length = t.dropWhile q := by
  intro t
  induction t with
  | nil => rfl
  | cons c t ih =>
    cases hc : q c with
    | true => simpa [List.takeWhile_cons, List.dropWhile_cons, hc] using ih
    | false => simp [List.takeWhile_cons, List.dropWhile_cons, hc]

theorem dropWhile_headD_not (q : Char → Bool) :
    ∀ t : Str, (t.dropWhile q).isEmpty = true ∨ q ((t.dropWhile q).headD ' ') = false := by
  intro t
  induction t with
  | nil => left; rfl
  | cons c t ih =>
    cases hc : q c with
    | true => simpa [List.dropWhile_cons, hc] using ih
    | false => right; simp [List.dropWhile_cons, hc]

theorem matchAt_sound {pre s m rest : Str} (h : matchAt pre s = some (m, rest)) :
    patternShape pre m = true ∧ m.isPrefixOf s = true ∧ rest = s.drop m.length ∧
      (rest.isEmpty || terminator (rest.headD ' ')) = true := by
  unfold matchAt at h
  split at h
  · next hpre =>
    dsimp only at h
    split at h
    · exact absurd h (by simp)
    · next hrun =>
      injection h with h
      injection h with h1 h2
      subst h1
      subst h2
      have hdl : ∀ r : Str, (pre ++ r).drop pre.length = r := fun r => by
        simpa using List.drop_left pre r
      have hrun2 : ((s.drop pre.length).takeWhile (fun c => !(terminator c))).isEmpty
          = false := by
        cases hh : ((s.drop pre.length).takeWhile (fun c => !(terminator c))).isEmpty
        · rfl
        · exact absurd hh hrun
      refine ⟨?_, ?_, ?_, ?_⟩
      · unfold patternShape
        rw [hdl]
        have hpp : pre.isPrefixOf
            (pre ++ (s.drop pre.length).takeWhile (fun c => !(terminator c))) = true :=
          List.isPrefixOf_iff_prefix.mpr (List.prefix_append pre _)
        have hall : ((s.drop pre.length).takeWhile (fun c => !(terminator c))).all
            (fun c => !(terminator c)) = true := by
          rw [List.all_eq_true]
          intro c hc
          have hx := List.mem_takeWhile_imp hc
          exact hx
        rw [hpp, hall, hrun2]
        rfl
      · apply List.isPrefixOf_iff_prefix.mpr
        have hs : pre ++ s.drop pre.length = s :=
          List.prefix_iff_eq_append.mp (List.isPrefixOf_iff_prefix.mp hpre)
        conv_rhs => rw [← hs]
        exact (List.prefix_append_right_inj pre).mpr ( List.takeWhile_prefix _)
      · rw [List.length_append, ← List.drop_drop]
      · rw [drop_takeWhile_length]
        rcases dropWhile_headD_not (fun c => !(terminator c)) (s.drop pre.length) with hh | hh
        · rw [hh]; rfl
        · rw [Bool.not_eq_false'] at hh
          rw [hh]
          simp
  · exact absurd h (by simp)

theorem occursTerminated_here {u s : Str} (h1 : u.isPrefixOf s = true)
    (h2 : ((s.drop u.length).isEmpty || terminator ((s.drop u.length).headD ' ')) = true) :
    occursTerminated u s = true := by
  cases s with
  | nil =>
    cases u with
    | nil => rfl
    | cons a l => exact absurd h1 (by simp [List.isPrefixOf])
  | cons c t =>
    unfold occursTerminated
    rw [h1, h2]
    rfl

theorem occursTerminated_of_suffix {u rest s : Str} (hsuf : rest <:+ s)
    (h : occursTerminated u rest = true) : occursTerminated u s = true := by
  induction s with
  | nil =>
    rw [List.suffix_nil.mp hsuf] at h
    exact h
  | cons c t ih =>
    rcases List.suffix_cons_iff.mp hsuf with hh | hh
    · rw [← hh]; exact h
    · unfold occursTerminated
      rw [ih hh]
      simp

theorem findAllAux_succ (pre : Str) (n : Nat) (s : Str) :
    findAllAux pre (n + 1) s =
      match matchAt pre s with
      | some (m, rest) => m :: findAllAux pre n rest
      | none =>
        match s with
        | [] => []
        | _ :: t => findAllAux pre n t := rfl

theorem findAllAux_sound (pre : Str) :
    ∀ (n : Nat) (s u : Str), u ∈ findAllAux pre n s →
      patternShape pre u = true ∧ occursTerminated u s = true := by
  intro n
  induction n with
  | zero => intro s u hu; exact absurd hu (by simp [findAllAux])
  | succ n ih =>
    intro s u hu
    rw [findAllAux_succ] at hu
    split at hu
    · next m rest hm =>
      rcases matchAt_sound hm with ⟨hshape, hprefix, hrest, hterm⟩
      rcases List.mem_cons.mp hu with hh | hh
      · subst hh
        refine ⟨hshape, occursTerminated_here hprefix ?_⟩
        rw [← hrest]
        exact hterm
      · rcases ih rest u hh with ⟨hs1, hs2⟩
        refine ⟨hs1, occursTerminated_of_suffix ?_ hs2⟩
        rw [hrest]
        exact List.drop_suffix _ _
    · split at hu
      · exact absurd hu (by simp)
      · rcases ih _ u hu with ⟨hs1, hs2⟩
        refine ⟨hs1, ?_⟩
        unfold occursTerminated
        rw [hs2]
        simp

theorem findAll_sound (pre s u : Str) (hu : u ∈ findAll pre s) :
    patternShape pre u = true ∧ occursTerminated u s = true :=
  findAllAux_sound pre s.length s u hu

theorem extract_sound (html u : Str) (hu : u ∈ extract_cdn_urls html) :
    DeclMatch html u = true := by
  unfold extract_cdn_urls at hu
  rw [List.mem_dedup, List.mem_append] at hu
  unfold DeclMatch
  rcases hu with hh | hh
  · rcases findAll_sound _ _ _ hh with ⟨h1, h2⟩
    rw [h1, h2]
    rfl
  · rcases findAll_sound _ _ _ hh with ⟨h1, h2⟩
    rw [h1, h2]
    simp

/-- C3 counterexample: the extractor is a left-to-right non-overlapping
scan, so a URL occurrence that begins inside an earlier match is not
returned.  In the HTML text consisting of a primary-CDN URL whose tail
is itself a primary-CDN URL, the inner URL
`https://cdn.prod.website-files.com/x` matches the pattern and occurs
maximally terminated, yet is not extracted — refuting "returns exactly
the set of distinct URLs matching either of the two CDN host patterns". -/
theorem claim_C3_counterexample :
    ¬ (∀ u : Str,
        u ∈ extract_cdn_urls
            "https://cdn.prod.website-files.com/https://cdn.prod.website-files.com/x y".toList
          ↔ DeclMatch
            "https://cdn.prod.website-files.com/https://cdn.prod.website-files.com/x y".toList
            u = true) := by
  intro h
  have h2 := (h "https://cdn.prod.website-files.com/x".toList).mpr (by decide)
  exact absurd h2 (by decide)

/-- C3, amended: the extractor returns a duplicate-free set; every
returned string matches one of the two CDN host patterns and occurs in
the HTML extending maximally to the first terminator character (double
quote, whitespace, closing parenthesis or greater-than sign) or the end
of the text; and whenever the result is non-empty some such declarative
match exists (so an HTML text with zero matches yields the empty set).
Completeness does not hold in general: an occurrence beginning inside an
earlier non-overlapping match is skipped by the scan. -/
theorem claim_C3 (html : Str) :
    (∀ u ∈ extract_cdn_urls html, DeclMatch html u = true) ∧
    (extract_cdn_urls html).Nodup ∧
    (extract_cdn_urls html ≠ [] →
      ∃ u, u ∈ extract_cdn_urls html ∧ DeclMatch html u = true) := by
  refine ⟨fun u hu => extract_sound html u hu, List.nodup_dedup _, fun hne => ?_⟩
  rcases List.exists_mem_of_ne_nil _ hne with ⟨u, hu⟩
  exact ⟨u, hu, extract_sound html u hu⟩

/-- C3 witness: the amended theorem applied to a concrete HTML text with
one URL of each pattern. -/
theorem claim_C3_witness :
    DeclMatch "See (https://d3e54v103j8qbb.cloudfront.net/jq.js) now".toList
      "https://d3e54v103j8qbb.cloudfront.net/jq.js".toList = true ∧
    (extract_cdn_urls "See (https://d3e54v103j8qbb.cloudfront.net/jq.js) now".toList).Nodup ∧
    (∃ u, u ∈ extract_cdn_urls "See (https://d3e54v103j8qbb.cloudfront.net/jq.js) now".toList ∧
      DeclMatch "See (https://d3e54v103j8qbb.cloudfront.net/jq.js) now".toList u = true) :=
  ⟨(claim_C3 "See (https://d3e54v103j8qbb.cloudfront.net/jq.js) now".toList).1
      "https://d3e54v103j8qbb.cloudfront.net/jq.js".toList (by decide),
   (claim_C3 "See (https://d3e54v103j8qbb.cloudfront.net/jq.js) now".toList).2.1,
   (claim_C3 "See (https://d3e54v103j8qbb.cloudfront.net/jq.js) now".toList).2.2 (by decide)⟩

theorem replaceAllAux_succ (old rep : Str) (n : Nat) (s : Str) :
    replaceAllAux old rep (n + 1) s =
      if old.isPrefixOf s && !old.isEmpty then
        rep ++ replaceAllAux old rep n (s.drop old.length)
      else
        match s with
        | [] => []
        | c :: t => c :: replaceAllAux old rep n t := rfl

theorem prefix_append_cases {w X Y : Str} (h : w <+: X ++ Y) :
    w <+: X ∨ X <+: w := by
  by_cases hl : w.length ≤ X.length
  · exact Or.inl ((List.isPrefix_append_of_length hl).mp h)
  · exact Or.inr (List.prefix_of_prefix_length_le (List.prefix_append X Y) h
      (Nat.le_of_not_le hl))

theorem infix_append_cases {u X Y : Str} (h : u <:+: X ++ Y) :
    u <:+: X ∨ u <:+: Y ∨
      ∃ x y, u = x ++ y ∧ x ≠ [] ∧ y ≠ [] ∧ x <:+ X ∧ y <+: Y := by
  induction X with
  | nil => exact Or.inr (Or.inl h)
  | cons a X1 ih =>
    rw [List.cons_append] at h
    rcases List.infix_cons_iff.mp h with hh | hh
    · rcases hh with ⟨t0, ht0⟩
      cases u with
      | nil => exact Or.inl List.nil_infix
      | cons b u1 =>
        have hb : b = a ∧ u1 <+: X1 ++ Y := List.cons_prefix_cons.mp ⟨t0, ht0⟩
        rcases hb with ⟨hb, hu1⟩
        subst hb
        rcases prefix_append_cases hu1 with hc | hc
        · exact Or.inl ((List.cons_prefix_cons.mpr ⟨rfl, hc⟩).isInfix)
        · have hu1eq : X1 ++ u1.drop X1.length = u1 := List.prefix_iff_eq_append.mp hc
          by_cases hy : u1.drop X1.length = []
          · have hXu : X1 = u1 := by
              rw [hy, List.append_nil] at hu1eq
              exact hu1eq
            subst hXu
            exact Or.inl List.infix_rfl
          · refine Or.inr (Or.inr ⟨b :: X1, u1.drop X1.length, ?_, by simp,
              hy, List.suffix_rfl, ?_⟩)
            · rw [List.cons_append, hu1eq]
            · have hd : u1.drop X1.length <+: (X1 ++ Y).drop X1.length := hu1.drop X1.length
              rw [List.drop_left] at hd
              exact hd
    · rcases ih hh with hc | hc | ⟨x, y, hxy, hx, hy, hsx, hpy⟩
      · exact Or.inl (List.infix_cons hc)
      · exact Or.inr (Or.inl hc)
      · exact Or.inr (Or.inr ⟨x, y, hxy, hx, hy, hsx.trans (List.suffix_cons a X1), hpy⟩)

theorem suffix_drop_form {x q : Str} (h : x <:+ q) :
    ∃ k, k ≤ q.length ∧ x = q.drop k ∧ (x ≠ [] → k < q.length) := by
  rcases h with ⟨t, ht⟩
  refine ⟨t.length, ?_, ?_, ?_⟩
  · rw [← ht, List.length_append]
    omega
  · rw [← ht, List.drop_left]
  · intro hx
    rw [← ht, List.length_append]
    rcases List.exists_mem_of_ne_nil x hx with ⟨a, _⟩
    have : 0 < x.length := List.length_pos_of_ne_nil hx
    omega

theorem not_infix_of_NoStartIn {q u : Str} (h1 : NoStartIn q u) (hne : u ≠ []) :
    ¬ u <:+: q := by
  rintro ⟨st, t2, ht⟩
  have hx : u <+: q.drop st.length := by
    rw [← ht, List.append_assoc, List.drop_left]
    exact List.prefix_append u t2
  have hk : st.length < q.length := by
    rw [← ht]
    simp only [List.length_append]
    have : 0 < u.length := List.length_pos_of_ne_nil hne
    omega
  exact h1 st.length hk (Or.inr hx)

theorem infix_append_left_ext {l X Y : Str} (h : l <:+: Y) : l <:+: X ++ Y := by
  rcases h with ⟨s, t, ht⟩
  exact ⟨X ++ s, t, by rw [← ht]; simp [List.append_assoc]⟩

theorem drop_succ_of_drop_cons {u : Str} {j : Nat} {a : Char} {w : Str}
    (h : u.drop j = a :: w) : u.drop (j + 1) = w := by
  have h2 : u.drop (j + 1) = (u.drop j).drop 1 := by
    rw [List.drop_drop]
  rw [h2, h]
  rfl

/-- If no nonempty proper tail of `u` agrees with `q`, a tail of `u` that
is a prefix of the replaced text was already a prefix of the original
text: replacement cannot manufacture the continuation of an occurrence
of `u`. -/
theorem span_prefix_replaceAllAux_rev {u v q : Str} (hsp : NoSpan u q) :
    ∀ (n : Nat) (t : Str) (j : Nat), 0 < j → j < u.length →
      u.drop j <+: replaceAllAux v q n t → u.drop j <+: t := by
  intro n
  induction n with
  | zero => intro t j h0 hj hpre; exact hpre
  | succ n ih =>
    intro t j h0 hj hpre
    rw [replaceAllAux_succ] at hpre
    split at hpre
    · rcases prefix_append_cases hpre with hc | hc
      · exact absurd (Or.inl hc) (hsp j hj h0)
      · exact absurd (Or.inr hc) (hsp j hj h0)
    · cases t with
      | nil => exact hpre
      | cons c t2 =>
        cases hw : u.drop j with
        | nil => exact List.nil_prefix
        | cons a w2 =>
          rw [hw] at hpre
          rcases List.cons_prefix_cons.mp hpre with ⟨hac, hw2⟩
          subst hac
          have hw2eq : u.drop (j + 1) = w2 := drop_succ_of_drop_cons hw
          have hw2t : w2 <+: t2 := by
            by_cases hj1 : j + 1 < u.length
            · have hx := ih t2 (j + 1) (Nat.succ_pos j) hj1 (by rw [hw2eq]; exact hw2)
              rw [hw2eq] at hx
              exact hx
            · have hnil : u.drop (j + 1) = [] := List.drop_eq_nil_iff.mpr (by omega)
              rw [hw2eq] at hnil
              rw [hnil]
              exact List.nil_prefix
          exact List.cons_prefix_cons.mpr ⟨rfl, hw2t⟩

/-- Dual direction: a tail of `p` that is a prefix of the original text
is still a prefix after replacement, provided no nonempty proper tail of
`p` agrees with the replaced string `v`. -/
theorem span_prefix_replaceAllAux_fwd {p v : Str} (q : Str) (hsp : NoSpan p v) :
    ∀ (n : Nat) (t : Str) (j : Nat), 0 < j → j < p.length →
      p.drop j <+: t → p.drop j <+: replaceAllAux v q n t := by
  intro n
  induction n with
  | zero => intro t j h0 hj hpre; exact hpre
  | succ n ih =>
    intro t j h0 hj hpre
    rw [replaceAllAux_succ]
    split
    · next hcond =>
      rw [Bool.and_eq_true] at hcond
      have hv : v <+: t := List.isPrefixOf_iff_prefix.mp hcond.1
      by_cases hl : (p.drop j).length ≤ v.length
      · exact absurd (Or.inl (List.prefix_of_prefix_length_le hpre hv hl))
          (hsp j hj h0)
      · exact absurd (Or.inr (List.prefix_of_prefix_length_le hv hpre (by omega)))
          (hsp j hj h0)
    · cases t with
      | nil => exact hpre
      | cons c t2 =>
        cases hw : p.drop j with
        | nil => exact List.nil_prefix
        | cons a w2 =>
          rw [hw] at hpre
          rcases List.cons_prefix_cons.mp hpre with ⟨hac, hw2⟩
          subst hac
          have hw2eq : p.drop (j + 1) = w2 := drop_succ_of_drop_cons hw
          have hw2t : w2 <+: replaceAllAux v q n t2 := by
            by_cases hj1 : j + 1 < p.length
            · have hx := ih t2 (j + 1) (Nat.succ_pos j) hj1 (by rw [hw2eq]; exact hw2)
              rw [hw2eq] at hx
              exact hx
            · have hnil : p.drop (j + 1) = [] := List.drop_eq_nil_iff.mpr (by omega)
              rw [hw2eq] at hnil
              rw [hnil]
              exact List.nil_prefix
          exact List.cons_prefix_cons.mpr ⟨rfl, hw2t⟩

/-- Replacing `v` by `q` cannot introduce an occurrence of `u` when none
was present, provided no occurrence of `u` can start inside a copy of
`q` and no proper tail of `u` agrees with `q`. -/
theorem notInfix_replaceAllAux {u v q : Str} (hne : u ≠ [])
    (h1 : NoStartIn q u) (h2 : NoSpan u q) :
    ∀ (n : Nat) (s : Str), ¬ u <:+: s → ¬ u <:+: replaceAllAux v q n s := by
  intro n
  induction n with
  | zero => intro s hu hinf; exact hu hinf
  | succ n ih =>
    intro s hu hinf
    rw [replaceAllAux_succ] at hinf
    split at hinf
    · rcases infix_append_cases hinf with hc | hc | ⟨x, y, hxy, hx, hy, hsx, hpy⟩
      · exact not_infix_of_NoStartIn h1 hne hc
      · have hsub : ¬ u <:+: s.drop v.length := fun hh =>
          hu (hh.trans (List.drop_suffix _ _).isInfix)
        exact ih _ hsub hc
      · rcases suffix_drop_form hsx with ⟨k, _, hk2, hk3⟩
        have hxu : x <+: u := by rw [hxy]; exact List.prefix_append x y
        rw [hk2] at hxu
        exact h1 k (hk3 (hk2 ▸ hx)) (Or.inl hxu)
    · cases s with
      | nil => exact hne (List.infix_nil.mp hinf)
      | cons c t =>
        rcases List.infix_cons_iff.mp hinf with hh | hh
        · cases u with
          | nil => exact hne rfl
          | cons b u2 =>
            rcases List.cons_prefix_cons.mp hh with ⟨hbc, hu2⟩
            subst hbc
            by_cases hu2nil : u2 = []
            · subst hu2nil
              exact hu ((List.cons_prefix_cons.mpr ⟨rfl, List.nil_prefix⟩).isInfix)
            · have h1lt : 1 < (b :: u2).length := by
                have := List.length_pos_of_ne_nil hu2nil
                simp only [List.length_cons]
                omega
              have hrev := span_prefix_replaceAllAux_rev h2 n t 1 Nat.one_pos h1lt hu2
              exact hu ((List.cons_prefix_cons.mpr ⟨rfl, hrev⟩).isInfix)
        · have hsub : ¬ u <:+: t := fun hh2 => hu (List.infix_cons hh2)
          exact ih _ hsub hh

theorem isEmpty_false_of_ne_nil {u : Str} (hne : u ≠ []) : u.isEmpty = false :=
  List.isEmpty_eq_false.mpr hne

/-- After `replaceAll u p`, no occurrence of `u` remains, provided no
occurrence of `u` can start inside a copy of `p` and no proper tail of
`u` agrees with `p`.  The fuel must cover the text. -/
theorem notInfix_replaceAllAux_self {u p : Str} (hne : u ≠ [])
    (h1 : NoStartIn p u) (h2 : NoSpan u p) :
    ∀ (n : Nat) (s : Str), s.length ≤ n → ¬ u <:+: replaceAllAux u p n s := by
  intro n
  induction n with
  | zero =>
    intro s hlen hinf
    have hs : s = [] := List.length_eq_zero.mp (Nat.le_zero.mp hlen)
    subst hs
    exact hne (List.infix_nil.mp hinf)
  | succ n ih =>
    intro s hlen hinf
    rw [replaceAllAux_succ] at hinf
    split at hinf
    · rcases infix_append_cases hinf with hc | hc | ⟨x, y, hxy, hx, hy, hsx, hpy⟩
      · exact not_infix_of_NoStartIn h1 hne hc
      · have hlen2 : (s.drop u.length).length ≤ n := by
          rw [List.length_drop]
          have := List.length_pos_of_ne_nil hne
          omega
        exact ih _ hlen2 hc
      · rcases suffix_drop_form hsx with ⟨k, _, hk2, hk3⟩
        have hxu : x <+: u := by rw [hxy]; exact List.prefix_append x y
        rw [hk2] at hxu
        exact h1 k (hk3 (hk2 ▸ hx)) (Or.inl hxu)
    · next hcond =>
      cases s with
      | nil => exact hne (List.infix_nil.mp hinf)
      | cons c t =>
        have hlen2 : t.length ≤ n := by
          simp only [List.length_cons] at hlen
          omega
        rcases List.infix_cons_iff.mp hinf with hh | hh
        · cases u with
          | nil => exact hne rfl
          | cons b u2 =>
            rcases List.cons_prefix_cons.mp hh with ⟨hbc, hu2⟩
            subst hbc
            have hpre : (b :: u2) <+: (b :: t) → False := by
              intro hp
              exact hcond (by
                rw [Bool.and_eq_true]
                exact ⟨List.isPrefixOf_iff_prefix.mpr hp,
                  by rw [isEmpty_false_of_ne_nil hne]; rfl⟩)
            by_cases hu2nil : u2 = []
            · subst hu2nil
              exact hpre (List.cons_prefix_cons.mpr ⟨rfl, List.nil_prefix⟩)
            · have h1lt : 1 < (b :: u2).length := by
                have := List.length_pos_of_ne_nil hu2nil
                simp only [List.length_cons]
                omega
              have hrev := span_prefix_replaceAllAux_rev h2 n t 1 Nat.one_pos h1lt hu2
              exact hpre (List.cons_prefix_cons.mpr ⟨rfl, hrev⟩)
        · exact ih t hlen2 hh

/-- After `replaceAll u p`, the replacement `p` occurs whenever `u`
occurred in the text.  The fuel must cover the text. -/
theorem rep_infix_replaceAllAux {u p : Str} (hne : u ≠ []) :
    ∀ (n : Nat) (s : Str), s.length ≤ n → u <:+: s →
      p <:+: replaceAllAux u p n s := by
  intro n
  induction n with
  | zero =>
    intro s hlen hu
    have hs : s = [] := List.length_eq_zero.mp (Nat.le_zero.mp hlen)
    subst hs
    exact absurd (List.infix_nil.mp hu) hne
  | succ n ih =>
    intro s hlen hu
    rw [replaceAllAux_succ]
    split
    · exact (List.prefix_append p _).isInfix
    · next hcond =>
      cases s with
      | nil => exact absurd (List.infix_nil.mp hu) hne
      | cons c t =>
        have hlen2 : t.length ≤ n := by
          simp only [List.length_cons] at hlen
          omega
        rcases List.infix_cons_iff.mp hu with hh | hh
        · exfalso
          exact hcond (by
            rw [Bool.and_eq_true]
            exact ⟨List.isPrefixOf_iff_prefix.mpr hh,
              by rw [isEmpty_false_of_ne_nil hne]; rfl⟩)
        · exact List.infix_cons (ih t hlen2 hh)

/-- Replacing `v` by `q` preserves the presence of `p`, provided no
occurrence of `p` can start inside a copy of `v` (in particular `p` is
not contained in `v`) and no proper tail of `p` agrees with `v`. -/
theorem keepInfix_replaceAllAux {p v q : Str} (hpne : p ≠ [])
    (h1 : NoStartIn v p) (h3 : NoSpan p v) :
    ∀ (n : Nat) (s : Str), p <:+: s → p <:+: replaceAllAux v q n s := by
  intro n
  induction n with
  | zero => intro s hp; exact hp
  | succ n ih =>
    intro s hp
    rw [replaceAllAux_succ]
    split
    · next hcond =>
      rw [Bool.and_eq_true] at hcond
      have hveq : v ++ s.drop v.length = s :=
        List.prefix_iff_eq_append.mp (List.isPrefixOf_iff_prefix.mp hcond.1)
      rw [← hveq] at hp
      rcases infix_append_cases hp with hc | hc | ⟨x, y, hxy, hx, hy, hsx, hpy⟩
      · exact absurd hc (not_infix_of_NoStartIn h1 hpne)
      · exact infix_append_left_ext (ih _ hc)
      · rcases suffix_drop_form hsx with ⟨k, _, hk2, hk3⟩
        have hxp : x <+: p := by rw [hxy]; exact List.prefix_append x y
        rw [hk2] at hxp
        exact absurd (Or.inl hxp) (h1 k (hk3 (hk2 ▸ hx)))
    · cases s with
      | nil => exact hp
      | cons c t =>
        rcases List.infix_cons_iff.mp hp with hh | hh
        · cases p with
          | nil => exact absurd rfl hpne
          | cons b p2 =>
            rcases List.cons_prefix_cons.mp hh with ⟨hbc, hp2⟩
            subst hbc
            by_cases hp2nil : p2 = []
            · subst hp2nil
              exact (List.cons_prefix_cons.mpr ⟨rfl, List.nil_prefix⟩).isInfix
            · have h1lt : 1 < (b :: p2).length := by
                have := List.length_pos_of_ne_nil hp2nil
                simp only [List.length_cons]
                omega
              have hfwd := span_prefix_replaceAllAux_fwd q h3 n t 1 Nat.one_pos h1lt hp2
              exact (List.cons_prefix_cons.mpr ⟨rfl, hfwd⟩).isInfix
        · exact List.infix_cons (ih t hh)

theorem notInfix_replaceAll {u v q : Str} (hne : u ≠ [])
    (h1 : NoStartIn q u) (h2 : NoSpan u q) (s : Str) (hu : ¬ u <:+: s) :
    ¬ u <:+: replaceAll v q s :=
  notInfix_replaceAllAux hne h1 h2 s.length s hu

theorem notInfix_replaceAll_self {u p : Str} (hne : u ≠ [])
    (h1 : NoStartIn p u) (h2 : NoSpan u p) (s : Str) :
    ¬ u <:+: replaceAll u p s :=
  notInfix_replaceAllAux_self hne h1 h2 s.length s Nat.le.refl

theorem rep_infix_replaceAll {u p : Str} (hne : u ≠ []) (s : Str)
    (hu : u <:+: s) : p <:+: replaceAll u p s :=
  rep_infix_replaceAllAux hne s.length s Nat.le.refl hu

theorem keepInfix_replaceAll {p v q : Str} (hpne : p ≠ [])
    (h1 : NoStartIn v p) (h3 : NoSpan p v) (s : Str) (hp : p <:+: s) :
    p <:+: replaceAll v q s :=
  keepInfix_replaceAllAux hpne h1 h3 s.length s hp

/-- A string `w` that occurs in the text still occurs after the whole
rewrite, provided no occurrence of `w` can start inside any replaced URL
and no proper tail of `w` agrees with any replaced URL. -/
theorem rewriteHtml_keeps_infix {w : Str} (hw : w ≠ []) :
    ∀ (l : List (Str × Str)) (h : Str),
      (∀ e ∈ l, NoStartIn e.1 w ∧ NoSpan w e.1) →
      w <:+: h → w <:+: rewriteHtml h l := by
  intro l
  induction l with
  | nil => intro h _ hh; exact hh
  | cons e l ih =>
    intro h hcond hh
    have he := hcond e (List.mem_cons_self e l)
    exact ih _ (fun e2 h2 => hcond e2 (List.mem_cons_of_mem _ h2))
      (keepInfix_replaceAll hw he.1 he.2 h hh)

/-- Once `u` is gone and `p` present, the remaining rewrite passes keep
it that way, provided `u` cannot restart inside any later replacement
text or continue into one, and `p` cannot be damaged by any later
replaced URL. -/
theorem rewriteHtml_keeps_notInfix_and_rep {u p : Str} (hu : u ≠ []) (hp : p ≠ []) :
    ∀ (l : List (Str × Str)) (h : Str),
      (∀ e ∈ l, (NoStartIn e.2 u ∧ NoSpan u e.2) ∧ (NoStartIn e.1 p ∧ NoSpan p e.1)) →
      ¬ u <:+: h → p <:+: h →
      ¬ u <:+: rewriteHtml h l ∧ p <:+: rewriteHtml h l := by
  intro l
  induction l with
  | nil => intro h _ hnu hpp; exact ⟨hnu, hpp⟩
  | cons e l ih =>
    intro h hcond hnu hpp
    have he := hcond e (List.mem_cons_self e l)
    exact ih _ (fun e2 h2 => hcond e2 (List.mem_cons_of_mem _ h2))
      (notInfix_replaceAll hu he.1.1 he.1.2 h hnu)
      (keepInfix_replaceAll hp he.2.1 he.2.2 h hpp)

/-- The round-trip property of the rewrite for one mapping entry
`(u, p)`, under the overlap-freedom side conditions: after the whole
rewrite the URL `u` no longer occurs and its local path `p` occurs. -/
theorem rewrite_round_trip {html u p : Str} {pre post : List (Str × Str)}
    (hu : u ≠ []) (hp : p ≠ [])
    (hpre : ∀ e ∈ pre, NoStartIn e.1 u ∧ NoSpan u e.1)
    (hself1 : NoStartIn p u) (hself2 : NoSpan u p)
    (hpost : ∀ e ∈ post,
      (NoStartIn e.2 u ∧ NoSpan u e.2) ∧ (NoStartIn e.1 p ∧ NoSpan p e.1))
    (hocc : u <:+: html) :
    ¬ u <:+: rewriteHtml html (pre ++ (u, p) :: post) ∧
      p <:+: rewriteHtml html (pre ++ (u, p) :: post) := by
  have h1 : u <:+: rewriteHtml html pre := rewriteHtml_keeps_infix hu pre html hpre hocc
  have heq : rewriteHtml html (pre ++ (u, p) :: post)
      = rewriteHtml (replaceAll u p (rewriteHtml html pre)) post := by
    unfold rewriteHtml
    rw [List.foldl_append, List.foldl_cons]
  rw [heq]
  exact rewriteHtml_keeps_notInfix_and_rep hu hp post _ hpost
    (notInfix_replaceAll_self hu hself1 hself2 _)
    (rep_infix_replaceAll hu _ h1)

theorem pySorted_perm (l : List Str) : (pySorted l).Perm l :=
  List.perm_insertionSort lexLeP l

/-! ### Claims about the driver -/

/-- C9: a missing or unreadable input HTML file aborts the run before
any other work: the model propagates the read error immediately with the
initial state — no URL extraction used, no output directory created, no
download attempted, no file and no HTML written. -/
theorem claim_C9 (o : Oracle) (e : Str) :
    mainT o (.error e) = .error (e, initState) ∧
    initState.mapping = [] ∧ initState.totalSize = 0 ∧
    initState.events = [] ∧ initState.files = [] :=
  ⟨rfl, rfl, rfl, rfl, rfl⟩

theorem processUrls_mono (o : Oracle) :
    ∀ (urls : List Str) (st0 st : RunState),
      processUrls o urls st0 = .ok st →
      st0.mapping <+: st.mapping ∧ st0.events <+: st.events ∧
        st0.files <+: st.files := by
  intro urls
  induction urls with
  | nil =>
    intro st0 st h
    injection h with h
    subst h
    exact ⟨List.prefix_refl _, List.prefix_refl _, List.prefix_refl _⟩
  | cons u rest ih =>
    intro st0 st h
    unfold processUrls at h
    split at h
    · exact absurd h (by simp)
    · split at h
      · exact absurd h (by simp)
      · split at h
        · rcases ih _ _ h with ⟨h1, h2, h3⟩
          refine ⟨(List.prefix_append _ _).trans h1,
            (List.prefix_append _ _).trans h2,
            (List.prefix_append _ _).trans h3⟩
        · rcases ih _ _ h with ⟨h1, h2, h3⟩
          exact ⟨h1, (List.prefix_append _ _).trans h2, h3⟩

theorem processUrls_mapping (o : Oracle) :
    ∀ (urls : List Str) (st0 st : RunState),
      processUrls o urls st0 = .ok st →
      ∃ np : List (Str × Str),
        st.mapping = st0.mapping ++ np ∧
        (np.map Prod.fst).Sublist urls ∧
        (∀ kv ∈ np, url_to_local_path kv.1 = .ok kv.2 ∧
          ∃ nb, (kv.1, Outcome.success nb) ∈ st.events) := by
  intro urls
  induction urls with
  | nil =>
    intro st0 st h
    injection h with h
    subst h
    exact ⟨[], by simp, by simp, by simp⟩
  | cons u rest ih =>
    intro st0 st h
    unfold processUrls at h
    split at h
    · exact absurd h (by simp)
    · next lp hlp =>
      split at h
      · exact absurd h (by simp)
      · next step hda =>
        split at h
        · next nb hout =>
          rcases ih _ _ h with ⟨np, hmap, hsub, hprop⟩
          have hev : (u, Outcome.success nb) ∈ st.events := by
            have hmono := (processUrls_mono o rest _ _ h).2.1
            exact hmono.sublist.subset (by simp)
          refine ⟨(u, lp) :: np, ?_, ?_, ?_⟩
          · rw [hmap]
            simp [List.append_assoc]
          · simpa using List.Sublist.cons₂ u hsub
          · intro kv hkv
            rcases List.mem_cons.mp hkv with hh | hh
            · subst hh
              exact ⟨hlp, nb, hev⟩
            · exact hprop kv hh
        · rcases ih _ _ h with ⟨np, hmap, hsub, hprop⟩
          exact ⟨np, hmap, hsub.cons u, hprop⟩

theorem processUrls_append (o : Oracle) (ys : List Str) :
    ∀ (xs : List Str) (st0 : RunState),
      processUrls o (xs ++ ys) st0 =
        match processUrls o xs st0 with
        | .error e => .error e
        | .ok st1 => processUrls o ys st1 := by
  intro xs
  induction xs with
  | nil => intro st0; rfl
  | cons u xs ih =>
    intro st0
    show processUrls o (u :: (xs ++ ys)) st0 = _
    rcases hlp : url_to_local_path u with e | lp
    · simp [processUrls, hlp]
    · rcases hda : download_asset o u lp OUTPUT_DIR with e | step
      · simp [processUrls, hlp, hda]
      · rcases step with ⟨outc, wrote⟩
        rcases outc with nb | msg
        · simp only [processUrls, hlp, hda]
          exact ih _
        · simp only [processUrls, hlp, hda]
          exact ih _

/-- C7: mapping invariant of the download loop.  After processing any
prefix of the sorted URL list, the mapping keys are distinct URLs from
the extracted set, every value is the mapper applied to its own key,
every key's download succeeded, and one more loop step only extends the
mapping (write-once: inserts only, never updates or removals). -/
theorem claim_C7 (o : Oracle) (html : Str) (n : Nat) (stn stn1 : RunState)
    (hn : processUrls o ((pySorted (extract_cdn_urls html)).take n) initState = .ok stn)
    (hn1 : processUrls o ((pySorted (extract_cdn_urls html)).take (n + 1)) initState
      = .ok stn1) :
    (stn.mapping.map Prod.fst).Nodup ∧
    (∀ kv ∈ stn.mapping, kv.1 ∈ extract_cdn_urls html ∧
      url_to_local_path kv.1 = .ok kv.2 ∧
      ∃ nb, (kv.1, Outcome.success nb) ∈ stn.events) ∧
    stn.mapping <+: stn1.mapping := by
  have hperm := pySorted_perm (extract_cdn_urls html)
  have hnodup : (pySorted (extract_cdn_urls html)).Nodup :=
    hperm.nodup_iff.mpr (List.nodup_dedup _)
  rcases processUrls_mapping o _ _ _ hn with ⟨np, hmap, hsub, hprop⟩
  have hmap0 : stn.mapping = np := by simpa [initState] using hmap
  have hsub2 : (stn.mapping.map Prod.fst).Sublist (pySorted (extract_cdn_urls html)) := by
    rw [hmap0]
    exact hsub.trans (List.take_sublist _ _)
  refine ⟨hsub2.nodup hnodup, ?_, ?_⟩
  · intro kv hkv
    have hk : kv.1 ∈ pySorted (extract_cdn_urls html) :=
      hsub2.subset (List.mem_map_of_mem Prod.fst hkv)
    rcases hprop kv (by rw [← hmap0]; exact hkv) with ⟨h1, h2⟩
    exact ⟨hperm.subset hk, h1, h2⟩
  · rw [List.take_succ] at hn1
    rw [processUrls_append o _ _ _] at hn1
    rw [hn] at hn1
    rcases processUrls_mapping o _ _ _ hn1 with ⟨np2, hmap2, -, -⟩
    exact ⟨np2, hmap2.symm⟩

theorem download_asset_ok_cases {o : Oracle} {u lp dir : Str} {step : DownloadStep}
    (h : download_asset o u lp dir = .ok step) :
    (∃ msg, step = ⟨.failure msg, none⟩) ∨
    (∃ content, o.fetch u = .ok content ∧
      step = ⟨.success content.length, some (pathJoin dir lp, content)⟩) := by
  unfold download_asset at h
  dsimp only at h
  split at h
  · exact absurd h (by simp)
  · split at h
    · injection h with h
      exact Or.inl ⟨_, h.symm⟩
    · next content hfe =>
      split at h
      · injection h with h
        exact Or.inl ⟨_, h.symm⟩
      · injection h with h
        exact Or.inr ⟨content, hfe, h.symm⟩

theorem download_asset_no_error {o : Oracle} {u lp dir : Str}
    (hmk : o.mkdirs (dirname (pathJoin dir lp)) = none) :
    ∃ step, download_asset o u lp dir = .ok step := by
  unfold download_asset
  dsimp only
  rw [hmk]
  cases hfe : o.fetch u with
  | error e => exact ⟨_, rfl⟩
  | ok c =>
    cases hw : o.write (pathJoin dir lp) with
    | none => exact ⟨_, rfl⟩
    | some e => exact ⟨_, rfl⟩

theorem download_asset_failure {o : Oracle} {u lp dir msg : Str}
    (hmk : o.mkdirs (dirname (pathJoin dir lp)) = none)
    (hfail : o.fetch u = .error msg ∨
      ∃ c, o.fetch u = .ok c ∧ o.write (pathJoin dir lp) = some msg) :
    download_asset o u lp dir = .ok ⟨.failure msg, none⟩ := by
  unfold download_asset
  dsimp only
  rw [hmk]
  rcases hfail with hf | ⟨c, hf, hw⟩
  · rw [hf]
  · rw [hf, hw]

theorem processUrls_accounting (o : Oracle) :
    ∀ (urls : List Str) (st0 st : RunState),
      processUrls o urls st0 = .ok st →
      st0.totalSize = (st0.files.map (fun f => f.2.length)).sum →
      st0.mapping.length = (st0.events.filter (fun ev => ev.2.isSuccess)).length →
      st.totalSize = (st.files.map (fun f => f.2.length)).sum ∧
      st.mapping.length = (st.events.filter (fun ev => ev.2.isSuccess)).length := by
  intro urls
  induction urls with
  | nil =>
    intro st0 st h h1 h2
    injection h with h
    subst h
    exact ⟨h1, h2⟩
  | cons u rest ih =>
    intro st0 st h h1 h2
    unfold processUrls at h
    split at h
    · exact absurd h (by simp)
    · next lp hlp =>
      split at h
      · exact absurd h (by simp)
      · next step hda =>
        split at h
        · next nb hout =>
          rcases download_asset_ok_cases hda with ⟨msg, hstep⟩ | ⟨content, hfe, hstep⟩
          · rw [hstep] at hout
            simp at hout
          · rw [hstep] at hout
            injection hout with hout
            subst hout
            refine ih _ _ h ?_ ?_
            · simp [hstep, h1, List.map_append, List.sum_append]
            · simp [h2, List.filter_append, Outcome.isSuccess]
        · refine ih _ _ h ?_ ?_
          · simpa using h1
          · simp [h2, List.filter_append, Outcome.isSuccess]

/-- C8, amended: the reported byte total equals the sum of the byte
lengths of the successful write events (each write counted, an
overwrite counted separately), and the reported asset count equals the
number of URLs whose download succeeded. -/
theorem claim_C8 (o : Oracle) (urls : List Str) (st : RunState)
    (h : processUrls o urls initState = .ok st) :
    st.totalSize = (st.files.map (fun f => f.2.length)).sum ∧
    st.mapping.length = (st.events.filter (fun ev => ev.2.isSuccess)).length :=
  processUrls_accounting o urls initState st h rfl rfl

/-- C8 counterexample: two distinct URLs map to the same local path
(`assets/images/x.png`); both downloads succeed (1 byte and 2 bytes),
the second write overwrites the first, the run reports 3 bytes, but the
files on disk at the end hold only 2 bytes — so the reported total does
not equal the sum of byte lengths of the (final) successfully written
files. -/
theorem claim_C8_counterexample :
    ∃ res, mainT collideOracle
        (.ok ("https://cdn.prod.website-files.com/a/x.png " ++
          "https://cdn.prod.website-files.com/b/x.png").toList) = .ok res ∧
      res.finalState.totalSize = 3 ∧
      res.finalState.files.map Prod.fst
        = ["breathscape-site/assets/images/x.png".toList,
           "breathscape-site/assets/images/x.png".toList] ∧
      diskTotal res.finalState.files = 2 ∧
      (3 : Nat) ≠ 2 :=
  ⟨_, rfl, by decide, by decide, by decide, by decide⟩

/-- C8 witness: the amended theorem applied to a concrete
all-successes run. -/
theorem claim_C8_witness :
    ∃ st, processUrls allOkOracle
        ["https://cdn.prod.website-files.com/s/a.png".toList] initState = .ok st ∧
      (st.totalSize = (st.files.map (fun f => f.2.length)).sum ∧
       st.mapping.length = (st.events.filter (fun ev => ev.2.isSuccess)).length) :=
  ⟨_, rfl, claim_C8 allOkOracle
    ["https://cdn.prod.website-files.com/s/a.png".toList] _ rfl⟩

theorem processUrls_C4_aux (o : Oracle) (u lpu msg : Str)
    (hu_lp : url_to_local_path u = .ok lpu)
    (hdl : download_asset o u lpu OUTPUT_DIR = .ok ⟨.failure msg, none⟩) :
    ∀ (urls : List Str) (st0 : RunState),
      (∀ v ∈ urls, ∃ lpv, url_to_local_path v = .ok lpv ∧
        o.mkdirs (dirname (pathJoin OUTPUT_DIR lpv)) = none) →
      ∃ st, processUrls o urls st0 = .ok st ∧
        st.events.map Prod.fst = st0.events.map Prod.fst ++ urls ∧
        (u ∈ urls → (u, Outcome.failure msg) ∈ st.events) ∧
        (∀ p, (u, p) ∈ st.mapping → (u, p) ∈ st0.mapping) := by
  intro urls
  induction urls with
  | nil =>
    intro st0 _
    exact ⟨st0, rfl, by simp, by simp, fun p hp => hp⟩
  | cons v rest ih =>
    intro st0 hok
    obtain ⟨lpv, hlpv, hmkv⟩ := hok v (List.mem_cons_self v rest)
    have hrest : ∀ w ∈ rest, ∃ lpw, url_to_local_path w = .ok lpw ∧
        o.mkdirs (dirname (pathJoin OUTPUT_DIR lpw)) = none :=
      fun w hw => hok w (List.mem_cons_of_mem v hw)
    by_cases hvu : v = u
    · subst hvu
      have hlpe : lpv = lpu := by
        rw [hlpv] at hu_lp
        injection hu_lp
      subst hlpe
      obtain ⟨st, hst, hev, humem, hmap⟩ :=
        ih { st0 with events := st0.events ++ [(v, Outcome.failure msg)] } hrest
      refine ⟨st, ?_, ?_, ?_, ?_⟩
      · show processUrls o (v :: rest) st0 = .ok st
        simp only [processUrls, hlpv, hdl]
        exact hst
      · rw [hev]
        simp
      · intro _
        have hin : (v, Outcome.failure msg)
            ∈ (st0.events ++ [(v, Outcome.failure msg)]) := by simp
        have hmono := (processUrls_mono o rest _ _ hst).2.1
        exact hmono.sublist.subset hin
      · intro p hp
        exact hmap p hp
    · obtain ⟨stepv, hdlv⟩ := download_asset_no_error hmkv
      rcases download_asset_ok_cases hdlv with ⟨m2, hstep⟩ | ⟨c2, hfetch, hstep⟩
      · subst hstep
        obtain ⟨st, hst, hev, humem, hmap⟩ :=
          ih { st0 with events := st0.events ++ [(v, Outcome.failure m2)] } hrest
        refine ⟨st, ?_, ?_, ?_, ?_⟩
        · show processUrls o (v :: rest) st0 = .ok st
          simp only [processUrls]
          rw [hlpv]
          dsimp only
          rw [hdlv]
          exact hst
        · rw [hev]
          simp
        · intro hmem
          rcases List.mem_cons.mp hmem with hh | hh
          · exact absurd hh.symm hvu
          · exact humem hh
        · intro p hp
          exact hmap p hp
      · subst hstep
        obtain ⟨st, hst, hev, humem, hmap⟩ :=
          ih { mapping := st0.mapping ++ [(v, lpv)],
               totalSize := st0.totalSize + c2.length,
               events := st0.events ++ [(v, Outcome.success c2.length)],
               files := st0.files ++ [(pathJoin OUTPUT_DIR lpv, c2)] } hrest
        refine ⟨st, ?_, ?_, ?_, ?_⟩
        · show processUrls o (v :: rest) st0 = .ok st
          simp only [processUrls]
          rw [hlpv]
          dsimp only
          rw [hdlv]
          exact hst
        · rw [hev]
          simp
        · intro hmem
          rcases List.mem_cons.mp hmem with hh | hh
          · exact absurd hh.symm hvu
          · exact humem hh
        · intro p hp
          have := hmap p hp
          simp only [List.mem_append, List.mem_singleton] at this
          rcases this with hh | hh
          · exact hh
          · injection hh with hh1 hh2
            exact absurd hh1.symm hvu

/-- C4, amended: a network error, timeout, non-2xx status, or a
disk-write error during the file write is caught and converted into a
failure outcome carrying the error description; the URL is excluded
from the mapping, the loop continues through every remaining URL (every
URL of the run gets exactly one outcome, in order), and the failed
URL's text is not a replacement source during the rewrite — its
occurrences survive provided no mapped URL overlaps them.  A
directory-creation error, by contrast, is NOT caught (`os.makedirs` sits
before the `try` block): it aborts the whole run. -/
theorem claim_C4 (o : Oracle) (urls : List Str) (u lpu msg : Str)
    (hok : ∀ v ∈ urls, ∃ lpv, url_to_local_path v = .ok lpv ∧
      o.mkdirs (dirname (pathJoin OUTPUT_DIR lpv)) = none)
    (hu_lp : url_to_local_path u = .ok lpu)
    (hfail : o.fetch u = .error msg ∨
      ∃ c, o.fetch u = .ok c ∧ o.write (pathJoin OUTPUT_DIR lpu) = some msg)
    (hmem : u ∈ urls) :
    ∃ st, processUrls o urls initState = .ok st ∧
      st.events.map Prod.fst = urls ∧
      (u, Outcome.failure msg) ∈ st.events ∧
      (∀ p, (u, p) ∉ st.mapping) ∧
      (∀ html, u ≠ [] → u <:+: html →
        (∀ e ∈ st.mapping, NoStartIn e.1 u ∧ NoSpan u e.1) →
        u <:+: rewriteHtml html st.mapping) := by
  have hmku : o.mkdirs (dirname (pathJoin OUTPUT_DIR lpu)) = none := by
    obtain ⟨lpv, hlpv, hmkv⟩ := hok u hmem
    rw [hlpv] at hu_lp
    injection hu_lp with hh
    rw [← hh]
    exact hmkv
  have hdl := download_asset_failure hmku hfail
  obtain ⟨st, hst, hev, humem, hmap⟩ :=
    processUrls_C4_aux o u lpu msg hu_lp hdl urls initState hok
  refine ⟨st, hst, by simpa [initState] using hev, humem hmem, ?_, ?_⟩
  · intro p hp
    have := hmap p hp
    simp [initState] at this
  · intro html hune hocc hcond
    exact rewriteHtml_keeps_infix hune st.mapping html hcond hocc

theorem mainT_ok_parts {o : Oracle} {html : Str} {res : RunResult}
    (h : mainT o (.ok html) = .ok res) :
    res.urls = pySorted (extract_cdn_urls html) ∧
    processUrls o res.urls initState = .ok res.finalState ∧
    res.newHtml = rewriteHtml html res.finalState.mapping := by
  unfold mainT at h
  dsimp only at h
  split at h
  · exact absurd h (by simp)
  · split at h
    · exact absurd h (by simp)
    · next st hst =>
      split at h
      · exact absurd h (by simp)
      · injection h with h
        subst h
        exact ⟨rfl, hst, rfl⟩

/-- C1, amended: for every URL `u` in the mapping of a completed run
that occurred in the original HTML, the rewritten HTML contains no
occurrence of `u` and at least one occurrence of its mapped local path
`p`, provided the mapping entries are overlap-free with respect to
`(u, p)`: no occurrence of `u` can start inside or continue into an
earlier-replaced URL, its own path, or a later entry's path, and no
occurrence of `p` can be damaged by a later entry's replaced URL. -/
theorem claim_C1 (o : Oracle) (html : Str) (res : RunResult)
    (pre post : List (Str × Str)) (u p : Str)
    (hmain : mainT o (.ok html) = .ok res)
    (hsplit : res.finalState.mapping = pre ++ (u, p) :: post)
    (hu : u ≠ []) (hp : p ≠ [])
    (hocc : u <:+: html)
    (hpre : ∀ e ∈ pre, NoStartIn e.1 u ∧ NoSpan u e.1)
    (hself1 : NoStartIn p u) (hself2 : NoSpan u p)
    (hpost : ∀ e ∈ post,
      (NoStartIn e.2 u ∧ NoSpan u e.2) ∧ (NoStartIn e.1 p ∧ NoSpan p e.1)) :
    ¬ u <:+: res.newHtml ∧ p <:+: res.newHtml := by
  obtain ⟨-, -, hnew⟩ := mainT_ok_parts hmain
  rw [hnew, hsplit]
  exact rewrite_round_trip hu hp hpre hself1 hself2 hpost hocc

/-- C1 counterexample: with two successfully downloaded URLs where one
is a strict prefix of the other, the earlier replacement corrupts the
longer URL's occurrence, so the longer URL ends up in the mapping, it
occurred in the original HTML, yet its mapped local path
(`assets/images/z`) never appears in the rewritten HTML — refuting "at
least one occurrence of its mapped local path". -/
theorem claim_C1_counterexample :
    ∃ res, mainT allOkOracle
        (.ok ("https://cdn.prod.website-files.com/s/a.png " ++
          "https://cdn.prod.website-files.com/s/a.png/z").toList) = .ok res ∧
      ("https://cdn.prod.website-files.com/s/a.png/z".toList,
        "assets/images/z".toList) ∈ res.finalState.mapping ∧
      "https://cdn.prod.website-files.com/s/a.png/z".toList <:+:
        ("https://cdn.prod.website-files.com/s/a.png " ++
          "https://cdn.prod.website-files.com/s/a.png/z").toList ∧
      ¬ "assets/images/z".toList <:+: res.newHtml :=
  ⟨_, rfl, by decide, by decide, by decide⟩

/-- C1 witness: the amended theorem applied to a concrete two-URL run
whose URLs and paths are pairwise overlap-free. -/
theorem claim_C1_witness :
    ∃ res, mainT allOkOracle
        (.ok ("https://cdn.prod.website-files.com/s/a.png " ++
          "https://d3e54v103j8qbb.cloudfront.net/jq.js").toList) = .ok res ∧
      (¬ "https://cdn.prod.website-files.com/s/a.png".toList <:+: res.newHtml ∧
        "assets/images/a.png".toList <:+: res.newHtml) :=
  ⟨_, rfl,
    claim_C1 allOkOracle
      ("https://cdn.prod.website-files.com/s/a.png " ++
        "https://d3e54v103j8qbb.cloudfront.net/jq.js").toList
      _ []
      [("https://d3e54v103j8qbb.cloudfront.net/jq.js".toList,
        "assets/js/jq.js".toList)]
      "https://cdn.prod.website-files.com/s/a.png".toList
      "assets/images/a.png".toList
      rfl rfl (by decide) (by decide) (by decide) (by simp)
      (by decide) (by decide) (by decide)⟩

/-- C4 counterexample: a disk error during directory creation is NOT
caught — `os.makedirs` sits before the `try` block of
`download_asset`.  With two URLs to download, a failing `makedirs` for
the first URL's directory aborts the whole run: no failure outcome is
recorded, no mapping entry is made, and the second URL is never
processed — refuting "disk-write error during directory creation is
caught and converted into a failure outcome ... and does not stop
processing of the remaining URLs". -/
theorem claim_C4_counterexample :
    mainT mkdirFailOracle
      (.ok ("https://cdn.prod.website-files.com/s/a.png " ++
        "https://d3e54v103j8qbb.cloudfront.net/jq.js").toList)
      = .error ("Permission denied".toList, initState) ∧
    initState.events = [] ∧ initState.mapping = [] :=
  ⟨rfl, rfl, rfl⟩

/-- C4 witness: the amended theorem applied to a concrete two-URL run
where the first URL's fetch times out. -/
theorem claim_C4_witness :
    ∃ st, processUrls fetchFailOracle
        ["https://cdn.prod.website-files.com/s/a.png".toList,
         "https://d3e54v103j8qbb.cloudfront.net/jq.js".toList] initState = .ok st ∧
      st.events.map Prod.fst
        = ["https://cdn.prod.website-files.com/s/a.png".toList,
           "https://d3e54v103j8qbb.cloudfront.net/jq.js".toList] ∧
      ("https://cdn.prod.website-files.com/s/a.png".toList,
        Outcome.failure "timeout".toList) ∈ st.events ∧
      (∀ p, ("https://cdn.prod.website-files.com/s/a.png".toList, p) ∉ st.mapping) ∧
      (∀ html, "https://cdn.prod.website-files.com/s/a.png".toList ≠ [] →
        "https://cdn.prod.website-files.com/s/a.png".toList <:+: html →
        (∀ e ∈ st.mapping,
          NoStartIn e.1 "https://cdn.prod.website-files.com/s/a.png".toList ∧
          NoSpan "https://cdn.prod.website-files.com/s/a.png".toList e.1) →
        "https://cdn.prod.website-files.com/s/a.png".toList
          <:+: rewriteHtml html st.mapping) :=
  claim_C4 fetchFailOracle
    ["https://cdn.prod.website-files.com/s/a.png".toList,
     "https://d3e54v103j8qbb.cloudfront.net/jq.js".toList]
    "https://cdn.prod.website-files.com/s/a.png".toList
    "assets/images/a.png".toList
    "timeout".toList
    (by
      intro v hv
      rcases List.mem_cons.mp hv with hh | hv2
      · subst hh
        exact ⟨"assets/images/a.png".toList, rfl, rfl⟩
      · rcases List.mem_cons.mp hv2 with hh | hh
        · subst hh
          exact ⟨"assets/js/jq.js".toList, rfl, rfl⟩
        · exact absurd hh (List.not_mem_nil v))
    rfl (Or.inl rfl) (by decide)

/-- C7 witness: the invariant theorem applied after one step of a
concrete two-URL run. -/
theorem claim_C7_witness :
    ∃ stn stn1,
      processUrls allOkOracle
        ((pySorted (extract_cdn_urls
          ("https://cdn.prod.website-files.com/s/a.png " ++
            "https://d3e54v103j8qbb.cloudfront.net/jq.js").toList)).take 1)
        initState = .ok stn ∧
      processUrls allOkOracle
        ((pySorted (extract_cdn_urls
          ("https://cdn.prod.website-files.com/s/a.png " ++
            "https://d3e54v103j8qbb.cloudfront.net/jq.js").toList)).take 2)
        initState = .ok stn1 ∧
      ((stn.mapping.map Prod.fst).Nodup ∧
       (∀ kv ∈ stn.mapping,
         kv.1 ∈ extract_cdn_urls
           ("https://cdn.prod.website-files.com/s/a.png " ++
             "https://d3e54v103j8qbb.cloudfront.net/jq.js").toList ∧
         url_to_local_path kv.1 = .ok kv.2 ∧
         ∃ nb, (kv.1, Outcome.success nb) ∈ stn.events) ∧
       stn.mapping <+: stn1.mapping) :=
  ⟨_, _, rfl, rfl,
    claim_C7 allOkOracle
      ("https://cdn.prod.website-files.com/s/a.png " ++
        "https://d3e54v103j8qbb.cloudfront.net/jq.js").toList
      1 _ _ rfl rfl⟩

end Breathscape
